import Mathlib

/-!
Verification of the Unicode text-formatter utilities of the repository
(`src/utils/appLockStorage.ts`, formatter half).

JavaScript strings are sequences of UTF-16 code units; we model them as
`List Nat`.  `String.prototype.split` with the empty separator splits into
single code units, while `Array.from` iterates code points (pairing a high
surrogate with an immediately following low surrogate).  Both are modelled
explicitly, because the source uses both and the difference is observable.
-/

set_option autoImplicit false
set_option maxRecDepth 10000

namespace Npdwe

/-- A JavaScript string: a list of UTF-16 code units. -/
abbrev Str := List Nat

/-- Is the unit a high (leading) surrogate? -/
def isHigh (c : Nat) : Bool := decide (0xD800 ≤ c ∧ c ≤ 0xDBFF)

/-- Is the unit a low (trailing) surrogate? -/
def isLow (c : Nat) : Bool := decide (0xDC00 ≤ c ∧ c ≤ 0xDFFF)

/-- `String.fromCodePoint` for a single code point, as UTF-16 units. -/
def fromCodePoint (cp : Nat) : Str :=
  if cp < 0x10000 then [cp]
  else [0xD800 + (cp - 0x10000) / 0x400, 0xDC00 + (cp - 0x10000) % 0x400]

/-- `text.split(the empty string)`: one element per UTF-16 code unit. -/
def splitChars (s : Str) : List Str := s.map (fun c => [c])

/-- `Array.from(text)`: split into code points, pairing well-formed
surrogate pairs and leaving lone surrogates as single elements. -/
def arrayFrom : Str → List Str
  | [] => []
  | [c] => [[c]]
  | c :: d :: rest =>
    if isHigh c && isLow d then [c, d] :: arrayFrom rest
    else [c] :: arrayFrom (d :: rest)

/-- One case table (`upper`, `lower` or `digits`) of a style:
association list from ASCII source unit to styled unit string. -/
structure StyleMap where
  upper : List (Nat × Str)
  lower : List (Nat × Str)
  digits : List (Nat × Str)

/-- Table rows for the 26 letters starting at ASCII code `base`. -/
def letterEntries (base : Nat) (v : Nat → Str) : List (Nat × Str) :=
  (List.range 26).map (fun i => (base + i, v i))

/-- Table rows for the 10 digits. -/
def digitEntries (v : Nat → Str) : List (Nat × Str) :=
  (List.range 10).map (fun i => (48 + i, v i))

/-- `charMaps.bold`: Mathematical Bold. -/
def boldMap : StyleMap :=
  ⟨letterEntries 65 (fun i => fromCodePoint (0x1D400 + i)),
   letterEntries 97 (fun i => fromCodePoint (0x1D41A + i)),
   digitEntries (fun i => fromCodePoint (0x1D7CE + i))⟩

/-- `charMaps.italic`: Mathematical Italic; lowercase h is the Planck
constant glyph U+210E. -/
def italicMap : StyleMap :=
  ⟨letterEntries 65 (fun i => fromCodePoint (0x1D434 + i)),
   letterEntries 97 (fun i => if i = 7 then [0x210E] else fromCodePoint (0x1D44E + i)),
   []⟩

/-- `charMaps.boldItalic`. -/
def boldItalicMap : StyleMap :=
  ⟨letterEntries 65 (fun i => fromCodePoint (0x1D468 + i)),
   letterEntries 97 (fun i => fromCodePoint (0x1D482 + i)),
   []⟩

/-- `charMaps.boldSans`. -/
def boldSansMap : StyleMap :=
  ⟨letterEntries 65 (fun i => fromCodePoint (0x1D5D4 + i)),
   letterEntries 97 (fun i => fromCodePoint (0x1D5EE + i)),
   digitEntries (fun i => fromCodePoint (0x1D7EC + i))⟩

/-- `charMaps.sansNormal`. -/
def sansNormalMap : StyleMap :=
  ⟨letterEntries 65 (fun i => fromCodePoint (0x1D5A0 + i)),
   letterEntries 97 (fun i => fromCodePoint (0x1D5BA + i)),
   digitEntries (fun i => fromCodePoint (0x1D7E2 + i))⟩

/-- `charMaps.italicSans`. -/
def italicSansMap : StyleMap :=
  ⟨letterEntries 65 (fun i => fromCodePoint (0x1D608 + i)),
   letterEntries 97 (fun i => fromCodePoint (0x1D622 + i)),
   []⟩

/-- `charMaps.boldItalicSans`. -/
def boldItalicSansMap : StyleMap :=
  ⟨letterEntries 65 (fun i => fromCodePoint (0x1D63C + i)),
   letterEntries 97 (fun i => fromCodePoint (0x1D656 + i)),
   []⟩

/-- Styled value of the i-th uppercase script letter; B, E, F, H, I, L, M, R
use pre-existing BMP glyphs (the lowercase keys of the source's special
table are unreachable in the uppercase reduce and are omitted). -/
def scriptUpperV (i : Nat) : Str :=
  if i = 1 then [0x212C] else if i = 4 then [0x2130] else if i = 5 then [0x2131]
  else if i = 7 then [0x210B] else if i = 8 then [0x2110] else if i = 11 then [0x2112]
  else if i = 12 then [0x2133] else if i = 17 then [0x211B]
  else fromCodePoint (0x1D49C + i)

/-- Styled value of the i-th lowercase script letter; e, g, o use
pre-existing BMP glyphs. -/
def scriptLowerV (i : Nat) : Str :=
  if i = 4 then [0x212F] else if i = 6 then [0x210A] else if i = 14 then [0x2134]
  else fromCodePoint (0x1D4B6 + i)

/-- `charMaps.script`. -/
def scriptMap : StyleMap :=
  ⟨letterEntries 65 scriptUpperV, letterEntries 97 scriptLowerV, []⟩

/-- `charMaps.monospace`. -/
def monospaceMap : StyleMap :=
  ⟨letterEntries 65 (fun i => fromCodePoint (0x1D670 + i)),
   letterEntries 97 (fun i => fromCodePoint (0x1D68A + i)),
   digitEntries (fun i => fromCodePoint (0x1D7F6 + i))⟩

/-- Styled value of the i-th uppercase double-struck letter; C, H, N, P, Q,
R, Z use pre-existing BMP glyphs. -/
def dsUpperV (i : Nat) : Str :=
  if i = 2 then [0x2102] else if i = 7 then [0x210D] else if i = 13 then [0x2115]
  else if i = 15 then [0x2119] else if i = 16 then [0x211A] else if i = 17 then [0x211D]
  else if i = 25 then [0x2124]
  else fromCodePoint (0x1D538 + i)

/-- `charMaps.doublestruck`. -/
def doublestruckMap : StyleMap :=
  ⟨letterEntries 65 dsUpperV,
   letterEntries 97 (fun i => fromCodePoint (0x1D552 + i)),
   digitEntries (fun i => fromCodePoint (0x1D7D8 + i))⟩

/-- The keys of `charMaps`, i.e. the substitution styles. -/
inductive MStyle
  | bold | italic | boldItalic | boldSans | sansNormal | italicSans
  | boldItalicSans | script | monospace | doublestruck
deriving DecidableEq

/-- The table of one substitution style. -/
def styleMapOf : MStyle → StyleMap
  | .bold => boldMap
  | .italic => italicMap
  | .boldItalic => boldItalicMap
  | .boldSans => boldSansMap
  | .sansNormal => sansNormalMap
  | .italicSans => italicSansMap
  | .boldItalicSans => boldItalicSansMap
  | .script => scriptMap
  | .monospace => monospaceMap
  | .doublestruck => doublestruckMap

/-- Insertion order of the keys of the `charMaps` object literal. -/
def styleOrder : List MStyle :=
  [.bold, .italic, .boldItalic, .boldSans, .sansNormal, .italicSans,
   .boldItalicSans, .script, .monospace, .doublestruck]

/-- `COMBINING_UNDERLINE` (U+0332, Combining Low Line). -/
def COMBINING_UNDERLINE : Nat := 0x332

/-- `COMBINING_STRIKETHROUGH` (U+0336, Combining Long Stroke Overlay). -/
def COMBINING_STRIKETHROUGH : Nat := 0x336

/-- The exported `UnicodeStyle` union type. -/
inductive UnicodeStyle
  | bold | italic | boldItalic | sansNormal | boldSans | italicSans
  | boldItalicSans | script | monospace | doublestruck
  | underline | strikethrough | boldUnderline | boldStrikethrough
deriving DecidableEq

/-- The `UnicodeStyle` member naming a substitution style. -/
def mappedToStyle : MStyle → UnicodeStyle
  | .bold => .bold
  | .italic => .italic
  | .boldItalic => .boldItalic
  | .boldSans => .boldSans
  | .sansNormal => .sansNormal
  | .italicSans => .italicSans
  | .boldItalicSans => .boldItalicSans
  | .script => .script
  | .monospace => .monospace
  | .doublestruck => .doublestruck

/-- Map one split element through a style table: `upper`, then `lower`,
then `digits`; unchanged when unmapped. -/
def mapCharStr (m : StyleMap) (ch : Str) : Str :=
  match ch with
  | [c] =>
    match m.upper.lookup c with
    | some s => s
    | none =>
      match m.lower.lookup c with
      | some s => s
      | none =>
        match m.digits.lookup c with
        | some s => s
        | none => [c]
  | other => other

/-- The substitution branch of `toUnicodeStyle`: per split character,
table lookup. -/
def applyMappedStyle (m : MStyle) (text : Str) : Str :=
  ((splitChars text).map (mapCharStr (styleMapOf m))).flatten

/-- The combining-mark branches: append the mark after every element of
`text.split(the empty string)`, i.e. after every UTF-16 code unit. -/
def appendAfterUnits (text : Str) (mark : Nat) : Str :=
  ((splitChars text).map (fun ch => ch ++ [mark])).flatten

/-- `toUnicodeStyle`. -/
def toUnicodeStyle (text : Str) (style : UnicodeStyle) : Str :=
  if text = [] then []
  else
    match style with
    | .underline => appendAfterUnits text COMBINING_UNDERLINE
    | .strikethrough => appendAfterUnits text COMBINING_STRIKETHROUGH
    | .boldUnderline => appendAfterUnits (applyMappedStyle .bold text) COMBINING_UNDERLINE
    | .boldStrikethrough => appendAfterUnits (applyMappedStyle .bold text) COMBINING_STRIKETHROUGH
    | .bold => applyMappedStyle .bold text
    | .italic => applyMappedStyle .italic text
    | .boldItalic => applyMappedStyle .boldItalic text
    | .sansNormal => applyMappedStyle .sansNormal text
    | .boldSans => applyMappedStyle .boldSans text
    | .italicSans => applyMappedStyle .italicSans text
    | .boldItalicSans => applyMappedStyle .boldItalicSans text
    | .script => applyMappedStyle .script text
    | .monospace => applyMappedStyle .monospace text
    | .doublestruck => applyMappedStyle .doublestruck text

/-- All `(plain, styled)` rows of one style, in `upper`, `lower`, `digits`
order. -/
def mapEntries (m : StyleMap) : List (Nat × Str) :=
  m.upper ++ m.lower ++ m.digits

/-- All rows of all styles, in `charMaps` insertion order. -/
def allEntries : List (Nat × Str) :=
  (styleOrder.map (fun s => mapEntries (styleMapOf s))).flatten

/-- Lookup in the merged reverse table.  The object is built by assignment
in `allEntries` order, so on key collision the last write wins: searching
the reversed row list yields the surviving binding. -/
def revLookup (ch : Str) : Option Nat :=
  (allEntries.reverse.find? (fun e => decide (e.2 = ch))).map (fun e => e.1)

/-- `reverseMap[char] || char` applied to one code-point element. -/
def revCharStr (ch : Str) : Str :=
  match revLookup ch with
  | some p => [p]
  | none => ch

/-- The global regex replacement removing both combining marks. -/
def stripCombining (s : Str) : Str :=
  s.filter (fun c => !(c == COMBINING_UNDERLINE || c == COMBINING_STRIKETHROUGH))

/-- `removeUnicodeFormatting`. -/
def removeUnicodeFormatting (text : Str) (preserveCombining : Bool := false) : Str :=
  let result := if preserveCombining then text else stripCombining text
  ((arrayFrom result).map revCharStr).flatten

/-- The `CharEmphasis` union type. -/
inductive CharEmphasis
  | none | bold | italic | boldItalic
deriving DecidableEq

/-- Emphasis bucket assigned to a style name by `detectCharEmphasis`. -/
def emphasisOfStyle : MStyle → CharEmphasis
  | .bold => .bold
  | .boldSans => .bold
  | .italic => .italic
  | .italicSans => .italic
  | .boldItalic => .boldItalic
  | .boldItalicSans => .boldItalic
  | _ => .none

/-- All rows of all styles tagged with their emphasis bucket, in the
iteration order of `detectCharEmphasis`. -/
def taggedEntries : List (Nat × Str × CharEmphasis) :=
  (styleOrder.map (fun s =>
    (mapEntries (styleMapOf s)).map (fun e => (e.1, e.2, emphasisOfStyle s)))).flatten

/-- `detectCharEmphasis`: first matching row wins; fall through to
`(char, none)` for plain or unmapped characters. -/
def detectCharEmphasis (ch : Str) : Str × CharEmphasis :=
  match taggedEntries.find? (fun e => decide (e.2.1 = ch)) with
  | some e => ([e.1], e.2.2)
  | Option.none => (ch, .none)

/-- The key strings of `variantEmphasisMap`, as ASCII unit lists. -/
def kwNormal : Str := [110, 111, 114, 109, 97, 108]

def kwBold : Str := [98, 111, 108, 100]

def kwItalic : Str := [105, 116, 97, 108, 105, 99]

def kwBoldItalic : Str := [98, 111, 108, 100, 73, 116, 97, 108, 105, 99]

def kwSansNormal : Str := [115, 97, 110, 115, 78, 111, 114, 109, 97, 108]

def kwBoldSans : Str := [98, 111, 108, 100, 83, 97, 110, 115]

def kwItalicSans : Str := [105, 116, 97, 108, 105, 99, 83, 97, 110, 115]

def kwBoldItalicSans : Str :=
  [98, 111, 108, 100, 73, 116, 97, 108, 105, 99, 83, 97, 110, 115]

def kwScript : Str := [115, 99, 114, 105, 112, 116]

def kwMonospace : Str := [109, 111, 110, 111, 115, 112, 97, 99, 101]

def kwDoublestruck : Str := [100, 111, 117, 98, 108, 101, 115, 116, 114, 117, 99, 107]

/-- The property names of `Object.prototype`, as ASCII unit lists:
`constructor`, `hasOwnProperty`, `isPrototypeOf`, `propertyIsEnumerable`,
`toLocaleString`, `toString`, `valueOf`, `__proto__`, `__defineGetter__`,
`__defineSetter__`, `__lookupGetter__`, `__lookupSetter__`.  A property
access on an object literal with one of these names yields the truthy
inherited value even though the object has no own entry. -/
def objectProtoNames : List Str :=
  [[99, 111, 110, 115, 116, 114, 117, 99, 116, 111, 114],
   [104, 97, 115, 79, 119, 110, 80, 114, 111, 112, 101, 114, 116, 121],
   [105, 115, 80, 114, 111, 116, 111, 116, 121, 112, 101, 79, 102],
   [112, 114, 111, 112, 101, 114, 116, 121, 73, 115, 69, 110, 117, 109,
    101, 114, 97, 98, 108, 101],
   [116, 111, 76, 111, 99, 97, 108, 101, 83, 116, 114, 105, 110, 103],
   [116, 111, 83, 116, 114, 105, 110, 103],
   [118, 97, 108, 117, 101, 79, 102],
   [95, 95, 112, 114, 111, 116, 111, 95, 95],
   [95, 95, 100, 101, 102, 105, 110, 101, 71, 101, 116, 116, 101, 114, 95, 95],
   [95, 95, 100, 101, 102, 105, 110, 101, 83, 101, 116, 116, 101, 114, 95, 95],
   [95, 95, 108, 111, 111, 107, 117, 112, 71, 101, 116, 116, 101, 114, 95, 95],
   [95, 95, 108, 111, 111, 107, 117, 112, 83, 101, 116, 116, 101, 114, 95, 95]]

/-- The string `constructor`. -/
def kwConstructor : Str := [99, 111, 110, 115, 116, 114, 117, 99, 116, 111, 114]

/-- What a row assigns to one emphasis level: the literal entry `plain`,
a style name, or no property at all (JavaScript `undefined`, as read off
a value inherited from `Object.prototype`, none of which has `none`,
`bold`, `italic` or `boldItalic` properties). -/
inductive StylePick
  | plain
  | style (s : UnicodeStyle)
  | absent

/-- One row of `variantEmphasisMap`: target style per emphasis level. -/
abbrev EmphRow := CharEmphasis → StylePick

/-- The `normal` row. -/
def normalRow : EmphRow
  | .none => .plain
  | .bold => .style .bold
  | .italic => .style .italic
  | .boldItalic => .style .boldItalic

/-- The `bold` row. -/
def boldRow : EmphRow
  | .none => .style .bold
  | .bold => .style .bold
  | .italic => .style .boldItalic
  | .boldItalic => .style .boldItalic

/-- The `italic` row. -/
def italicRow : EmphRow
  | .none => .style .italic
  | .bold => .style .boldItalic
  | .italic => .style .italic
  | .boldItalic => .style .boldItalic

/-- The `boldItalic` row. -/
def boldItalicRow : EmphRow := fun _ => .style .boldItalic

/-- The `sansNormal` row. -/
def sansNormalRow : EmphRow
  | .none => .style .sansNormal
  | .bold => .style .boldSans
  | .italic => .style .italicSans
  | .boldItalic => .style .boldItalicSans

/-- The `boldSans` row. -/
def boldSansRow : EmphRow
  | .none => .style .boldSans
  | .bold => .style .boldSans
  | .italic => .style .boldItalicSans
  | .boldItalic => .style .boldItalicSans

/-- The `italicSans` row. -/
def italicSansRow : EmphRow
  | .none => .style .italicSans
  | .bold => .style .boldItalicSans
  | .italic => .style .italicSans
  | .boldItalic => .style .boldItalicSans

/-- The `boldItalicSans` row. -/
def boldItalicSansRow : EmphRow := fun _ => .style .boldItalicSans

/-- The `script` row. -/
def scriptRow : EmphRow := fun _ => .style .script

/-- The `monospace` row. -/
def monospaceRow : EmphRow := fun _ => .style .monospace

/-- The `doublestruck` row. -/
def doublestruckRow : EmphRow := fun _ => .style .doublestruck

/-- The value read through the prototype chain when `targetVariant` names
an `Object.prototype` property: it is truthy, so the guard does not fire,
and each of its `none`/`bold`/`italic`/`boldItalic` property reads yields
`undefined`. -/
def protoRow : EmphRow := fun _ => .absent

/-- `variantEmphasisMap`, rows in insertion order. -/
def variantEmphasisMap : List (Str × EmphRow) :=
  [(kwNormal, normalRow),
   (kwBold, boldRow),
   (kwItalic, italicRow),
   (kwBoldItalic, boldItalicRow),
   (kwSansNormal, sansNormalRow),
   (kwBoldSans, boldSansRow),
   (kwItalicSans, italicSansRow),
   (kwBoldItalicSans, boldItalicSansRow),
   (kwScript, scriptRow),
   (kwMonospace, monospaceRow),
   (kwDoublestruck, doublestruckRow)]

/-- `variantEmphasisMap[targetVariant]` followed by the truthiness guard:
an own key yields its row; a name inherited from `Object.prototype` yields
a truthy non-row value (modelled by `protoRow`, faithful to every
property read the function performs on it); any other name yields
`undefined` and the guard returns the text unchanged (`none` here). -/
def variantLookup (tv : Str) : Option EmphRow :=
  match (variantEmphasisMap.find? (fun e => decide (e.1 = tv))).map (fun e => e.2) with
  | some row => some row
  | Option.none =>
    if tv ∈ objectProtoNames then some protoRow else Option.none

/-- Is the element exactly one of the two combining-mark characters? -/
def isCombMarkStr (ch : Str) : Bool :=
  decide (ch = [COMBINING_UNDERLINE] ∨ ch = [COMBINING_STRIKETHROUGH])

/-- Append marks to the entry of index `i` of the combining-mark record,
creating the entry when absent (JavaScript object assignment). -/
def pushMark : List (Int × Str) → Int → Str → List (Int × Str)
  | [], i, m => [(i, m)]
  | e :: rest, i, m =>
    if e.1 = i then (e.1, e.2 ++ m) :: rest else e :: pushMark rest i m

/-- Read the combining-mark record at index `i` (empty when absent). -/
def lookupMarks (comb : List (Int × Str)) (i : Int) : Str :=
  match comb.find? (fun e => decide (e.1 = i)) with
  | some e => e.2
  | Option.none => []

/-- One step of the mark-gathering loop of `convertPreservingEmphasis`:
a combining mark is recorded under `cleanChars.length - 1` (which is `-1`
before any clean character), anything else is pushed as a clean char. -/
def gStep (acc : List Str × List (Int × Str)) (ch : Str) :
    List Str × List (Int × Str) :=
  if isCombMarkStr ch then
    (acc.1, pushMark acc.2 ((acc.1.length : Int) - 1) ch)
  else
    (acc.1 ++ [ch], acc.2)

/-- The combining-mark record produced by running the gathering loop over
a list of base-plus-marks blocks, starting at clean index `n`: the marks
of the i-th block are pushed under index `n + i`. -/
def combOfBlocks : Nat → List (Str × Str) → List (Int × Str) → List (Int × Str)
  | _, [], comb => comb
  | n, p :: rest, comb =>
    combOfBlocks (n + 1) rest
      (p.2.foldl (fun cb u => pushMark cb (n : Int) [u]) comb)

/-- Per clean character: detect emphasis, pick the target style from the
row, convert.  `plain` keeps the detected plain character; an `undefined`
target style reaches `toUnicodeStyle(plain, undefined)`, whose
`charMaps[undefined]` lookup fails and which therefore also returns the
plain character unchanged. -/
def convertChar (row : EmphRow) (ch : Str) : Str :=
  match row (detectCharEmphasis ch).2 with
  | .plain => (detectCharEmphasis ch).1
  | .style st => toUnicodeStyle (detectCharEmphasis ch).1 st
  | .absent => (detectCharEmphasis ch).1

/-- `convertPreservingEmphasis`. -/
def convertPreservingEmphasis (text : Str) (targetVariant : Str) : Str :=
  match variantLookup targetVariant with
  | Option.none => text
  | some row =>
    let st := (arrayFrom text).foldl gStep ([], [])
    ((st.1.enum).map
      (fun p => convertChar row p.2 ++ lookupMarks st.2 (p.1 : Int))).flatten

/-! ### List formatters -/

/-- The whitespace set recognised by `String.prototype.trim`. -/
def isWhitespaceUnit (c : Nat) : Bool :=
  c == 9 || c == 10 || c == 11 || c == 12 || c == 13 || c == 32 ||
  c == 0xA0 || c == 0x1680 || (decide (0x2000 ≤ c) && decide (c ≤ 0x200A)) ||
  c == 0x2028 || c == 0x2029 || c == 0x202F || c == 0x205F ||
  c == 0x3000 || c == 0xFEFF

/-- `line.trim()`. -/
def trimStr (s : Str) : Str :=
  ((s.dropWhile isWhitespaceUnit).reverse.dropWhile isWhitespaceUnit).reverse

/-- `text.split(a newline)`: JavaScript semantics, so the empty string
yields one empty field and a trailing separator yields a trailing empty
field. -/
def splitNL : Str → List Str
  | [] => [[]]
  | c :: rest =>
    if c = 10 then [] :: splitNL rest
    else
      match splitNL rest with
      | [] => [[c]]
      | l :: ls => (c :: l) :: ls

/-- `lines.join(a newline)`. -/
def joinNL (ls : List Str) : Str := (ls.intersperse [10]).flatten

/-- Decimal digits, fuel-driven so that the recursion is structural
(`fuel = n + 1` always suffices since the argument shrinks). -/
def natDigitsAux : Nat → Nat → Str
  | 0, _ => []
  | fuel + 1, n =>
    if n < 10 then [48 + n] else natDigitsAux fuel (n / 10) ++ [48 + n % 10]

/-- Decimal digits of `n`, as ASCII units (template interpolation of a
number). -/
def natDigits (n : Nat) : Str := natDigitsAux (n + 1) n

/-- The lines kept by every list formatter: those with nonempty trim. -/
def keptLines (text : Str) : List Str :=
  (splitNL text).filter (fun l => decide (trimStr l ≠ []))

/-- `toBulletList`. -/
def toBulletList (text : Str) : Str :=
  joinNL ((keptLines text).map (fun l => [0x2022, 32] ++ trimStr l))

/-- `toNumberedList`. -/
def toNumberedList (text : Str) : Str :=
  joinNL (((keptLines text).enum).map
    (fun p => natDigits (p.1 + 1) ++ [46, 32] ++ trimStr p.2))

/-- `toCheckboxList`. -/
def toCheckboxList (text : Str) : Str :=
  joinNL ((keptLines text).map (fun l => [0x2610, 32] ++ trimStr l))

/-- `toAscendingList`. -/
def toAscendingList (text : Str) : Str :=
  joinNL ((keptLines text).map (fun l => [0x2197, 32] ++ trimStr l))

/-- `toDescendingList`. -/
def toDescendingList (text : Str) : Str :=
  joinNL ((keptLines text).map (fun l => [0x2198, 32] ++ trimStr l))

/-! ### Auxiliary notions used by the theorems -/

/-- Does the string start with a low surrogate?  (Vacuously false when
empty.) -/
def headNotLow (s : Str) : Prop :=
  ∀ d, s.head? = some d → isLow d = false

/-- A printable ASCII letter or digit. -/
def isAsciiAlnum (c : Nat) : Prop :=
  (48 ≤ c ∧ c < 58) ∨ (65 ≤ c ∧ c < 91) ∨ (97 ≤ c ∧ c < 123)

instance (c : Nat) : Decidable (isAsciiAlnum c) := by
  unfold isAsciiAlnum; infer_instance

/-- Shape invariant of the element lists produced by `Array.from`:
singles that are not high surrogates, well-formed surrogate pairs, and
lone high surrogates that are not followed by a low surrogate. -/
inductive Chunks : List Str → Prop
  | nil : Chunks []
  | one (c : Nat) (bs : List Str) : isHigh c = false → Chunks bs →
      Chunks ([c] :: bs)
  | two (h l : Nat) (bs : List Str) : isHigh h = true → isLow l = true →
      Chunks bs → Chunks ([h, l] :: bs)
  | lone (c : Nat) (bs : List Str) : isHigh c = true → headNotLow bs.flatten →
      Chunks bs → Chunks ([c] :: bs)

/-- A block that is a non-surrogate single or a well-formed pair: such
blocks chunk without any condition on their neighbours. -/
def simpleBlock (b : Str) : Bool :=
  match b with
  | [c] => !(isHigh c)
  | [h, l] => isHigh h && isLow l
  | _ => false

/-- Encode a styled value injectively into a number (all values are
single units or surrogate pairs). -/
def encodeStr (s : Str) : Nat :=
  match s with
  | [a] => a
  | [h, l] => h * 0x10000 + l
  | _ => 0

/-- The encoded styled values of all rows. -/
def allValueKeys : List Nat := allEntries.map (fun e => encodeStr e.2)

/-- Linear check that a list of numbers is strictly increasing. -/
def strictChain : List Nat → Bool
  | [] => true
  | [_] => true
  | a :: b :: rest => decide (a < b) && strictChain (b :: rest)

/-- Uppercase value function of each style. -/
def upperVF : MStyle → Nat → Str
  | .bold => fun i => fromCodePoint (0x1D400 + i)
  | .italic => fun i => fromCodePoint (0x1D434 + i)
  | .boldItalic => fun i => fromCodePoint (0x1D468 + i)
  | .boldSans => fun i => fromCodePoint (0x1D5D4 + i)
  | .sansNormal => fun i => fromCodePoint (0x1D5A0 + i)
  | .italicSans => fun i => fromCodePoint (0x1D608 + i)
  | .boldItalicSans => fun i => fromCodePoint (0x1D63C + i)
  | .script => scriptUpperV
  | .monospace => fun i => fromCodePoint (0x1D670 + i)
  | .doublestruck => dsUpperV

/-- Lowercase value function of each style. -/
def lowerVF : MStyle → Nat → Str
  | .bold => fun i => fromCodePoint (0x1D41A + i)
  | .italic => fun i => if i = 7 then [0x210E] else fromCodePoint (0x1D44E + i)
  | .boldItalic => fun i => fromCodePoint (0x1D482 + i)
  | .boldSans => fun i => fromCodePoint (0x1D5EE + i)
  | .sansNormal => fun i => fromCodePoint (0x1D5BA + i)
  | .italicSans => fun i => fromCodePoint (0x1D622 + i)
  | .boldItalicSans => fun i => fromCodePoint (0x1D656 + i)
  | .script => scriptLowerV
  | .monospace => fun i => fromCodePoint (0x1D68A + i)
  | .doublestruck => fun i => fromCodePoint (0x1D552 + i)

/-- Digit value function of the styles that have a digit table. -/
def digitVF : MStyle → Option (Nat → Str)
  | .bold => some (fun i => fromCodePoint (0x1D7CE + i))
  | .boldSans => some (fun i => fromCodePoint (0x1D7EC + i))
  | .sansNormal => some (fun i => fromCodePoint (0x1D7E2 + i))
  | .monospace => some (fun i => fromCodePoint (0x1D7F6 + i))
  | .doublestruck => some (fun i => fromCodePoint (0x1D7D8 + i))
  | _ => none

/-! ### Structure of `arrayFrom` -/

theorem arrayFrom_cons_not_high (c : Nat) (t : Str) (h : isHigh c = false) :
    arrayFrom (c :: t) = [c] :: arrayFrom t := by
  cases t with
  | nil => rfl
  | cons d rest => simp [arrayFrom, h]

theorem arrayFrom_cons_pair (h l : Nat) (t : Str) (hh : isHigh h = true)
    (hl : isLow l = true) : arrayFrom (h :: l :: t) = [h, l] :: arrayFrom t := by
  simp [arrayFrom, hh, hl]

theorem arrayFrom_cons_lone (c : Nat) (t : Str) (hh : isHigh c = true)
    (ht : headNotLow t) : arrayFrom (c :: t) = [c] :: arrayFrom t := by
  cases t with
  | nil => rfl
  | cons d rest =>
    have hd : isLow d = false := ht d rfl
    simp [arrayFrom, hh, hd]

/-- `Array.from` only regroups units; their concatenation is unchanged. -/
theorem arrayFrom_flatten (s : Str) : (arrayFrom s).flatten = s := by
  induction s using arrayFrom.induct with
  | case1 => rfl
  | case2 c => rfl
  | case3 c d rest h ih => rw [arrayFrom]; simp only [h, if_true]; simp [ih]
  | case4 c d rest h ih => rw [arrayFrom]; simp only [h, if_false]; simp [ih]

theorem Chunks.ne_nil {bs : List Str} (h : Chunks bs) : ∀ b ∈ bs, b ≠ [] := by
  induction h with
  | nil => intro b hb; cases hb
  | one c bs hc hbs ih =>
    intro b hb
    rcases List.mem_cons.mp hb with h1 | h2
    · simp [h1]
    · exact ih b h2
  | two c l bs hc hl hbs ih =>
    intro b hb
    rcases List.mem_cons.mp hb with h1 | h2
    · simp [h1]
    · exact ih b h2
  | lone c bs hc hn hbs ih =>
    intro b hb
    rcases List.mem_cons.mp hb with h1 | h2
    · simp [h1]
    · exact ih b h2

theorem chunks_arrayFrom (s : Str) : Chunks (arrayFrom s) := by
  induction s using arrayFrom.induct with
  | case1 => exact Chunks.nil
  | case2 c =>
    by_cases hc : isHigh c = true
    · exact Chunks.lone c [] hc (by intro d hd; simp at hd) Chunks.nil
    · exact Chunks.one c [] (by simpa using hc) Chunks.nil
  | case3 c d rest h ih =>
    have h2 : isHigh c = true ∧ isLow d = true := by
      simpa only [Bool.and_eq_true] using h
    rw [arrayFrom]; simp only [h, if_true]
    exact Chunks.two c d _ h2.1 h2.2 ih
  | case4 c d rest h ih =>
    rw [arrayFrom]; simp only [h, if_false]
    by_cases hc : isHigh c = true
    · refine Chunks.lone c _ hc ?_ ih
      rw [arrayFrom_flatten]
      intro e he
      simp only [List.head?_cons, Option.some.injEq] at he
      have h2 : ¬ (isHigh c = true ∧ isLow d = true) := by
        simpa only [Bool.and_eq_true] using h
      rcases not_and_or.mp h2 with h3 | h4
      · exact absurd hc h3
      · rw [← he]; simpa using h4
    · exact Chunks.one c _ (by simpa using hc) ih

/-- Re-iterating the code points of a chunked list's concatenation
recovers exactly the chunks. -/
theorem arrayFrom_of_chunks {bs : List Str} (h : Chunks bs) :
    arrayFrom bs.flatten = bs := by
  induction h with
  | nil => rfl
  | one c bs hc hbs ih =>
    simp only [List.flatten_cons, List.singleton_append]
    rw [arrayFrom_cons_not_high c _ hc, ih]
  | two c l bs hc hl hbs ih =>
    simp only [List.flatten_cons]
    rw [List.cons_append, List.cons_append, List.nil_append,
      arrayFrom_cons_pair c l _ hc hl, ih]
  | lone c bs hc hn hbs ih =>
    simp only [List.flatten_cons, List.singleton_append]
    rw [arrayFrom_cons_lone c _ hc hn, ih]

/-! ### The merged tables are collision-free -/

theorem strictChain_sorted : ∀ l : List Nat, strictChain l = true →
    List.Sorted (· < ·) l
  | [] => fun _ => List.sorted_nil
  | [a] => fun _ => List.sorted_singleton a
  | a :: b :: rest => fun h => by
    have h1 : a < b ∧ strictChain (b :: rest) = true := by
      simpa only [strictChain, Bool.and_eq_true, decide_eq_true_eq] using h
    have hrest := strictChain_sorted (b :: rest) h1.2
    have hchain : List.Chain' (· < ·) (a :: b :: rest) := by
      refine List.chain'_cons.mpr ⟨h1.1, ?_⟩
      exact List.chain'_iff_pairwise.mpr hrest
    exact List.chain'_iff_pairwise.mp hchain

set_option maxHeartbeats 4000000 in
theorem sorted_insertion_all :
    strictChain (allValueKeys.insertionSort (· ≤ ·)) = true := by decide

/-- No two rows of the merged tables share a styled value. -/
theorem allValues_nodup : (allEntries.map (fun e => e.2)).Nodup := by
  have h1 := strictChain_sorted _ sorted_insertion_all
  have h2 : (allValueKeys.insertionSort (· ≤ ·)).Nodup := h1.nodup
  have h3 : allValueKeys.Nodup :=
    (List.perm_insertionSort (· ≤ ·) allValueKeys).nodup_iff.mp h2
  have h4 : allValueKeys = (allEntries.map (fun e => e.2)).map encodeStr := by
    simp [allValueKeys, List.map_map]
  exact List.Nodup.of_map encodeStr (h4 ▸ h3)

theorem chunks_of_simple {bs : List Str} (h : ∀ b ∈ bs, simpleBlock b = true) :
    Chunks bs := by
  induction bs with
  | nil => exact Chunks.nil
  | cons b rest ih =>
    have hb : simpleBlock b = true := h b (by simp)
    have hrest : Chunks rest := ih (fun x hx => h x (by simp [hx]))
    match b, hb with
    | [c], hb =>
      exact Chunks.one c rest (by simpa [simpleBlock] using hb) hrest
    | [c, l], hb =>
      have h2 : isHigh c = true ∧ isLow l = true := by
        simpa only [simpleBlock, Bool.and_eq_true] using hb
      exact Chunks.two c l rest h2.1 h2.2 hrest

/-- Linear scan: every row has an ASCII-range plain source, and a styled
value that is a simple block all of whose units are at least U+2102. -/
theorem allEntries_scan : allEntries.all (fun e =>
    decide (e.1 < 128) && (e.2.all (fun u => decide (0x2102 ≤ u)))
      && simpleBlock e.2) = true := by decide

theorem allEntries_props {e : Nat × Str} (he : e ∈ allEntries) :
    e.1 < 128 ∧ (∀ u ∈ e.2, 0x2102 ≤ u) ∧ simpleBlock e.2 = true := by
  have h := List.all_eq_true.mp allEntries_scan e he
  simp only [Bool.and_eq_true, decide_eq_true_eq, List.all_eq_true] at h
  exact ⟨h.1.1, fun u hu => h.1.2 u hu, h.2⟩

/-! ### Association list lookups -/

theorem lookup_eq_none {l : List (Nat × Str)} {c : Nat}
    (h : c ∉ l.map (fun e => e.1)) : l.lookup c = none := by
  induction l with
  | nil => rfl
  | cons e rest ih =>
    obtain ⟨k, v⟩ := e
    simp only [List.map_cons, List.mem_cons, not_or] at h
    have hne : (c == k) = false := beq_eq_false_iff_ne.mpr h.1
    simpa [List.lookup, hne] using ih h.2

theorem lookup_eq_some_of_mem {l : List (Nat × Str)}
    (hnd : (l.map (fun e => e.1)).Nodup) {c : Nat} {s : Str}
    (hm : (c, s) ∈ l) : l.lookup c = some s := by
  induction l with
  | nil => cases hm
  | cons e rest ih =>
    obtain ⟨k, v⟩ := e
    simp only [List.map_cons, List.nodup_cons] at hnd
    rcases List.mem_cons.mp hm with h1 | h2
    · obtain ⟨rfl, rfl⟩ := Prod.mk.injEq .. ▸ h1
      simp [List.lookup]
    · have hne : (c == k) = false := by
        refine beq_eq_false_iff_ne.mpr (fun hc => ?_)
        subst hc
        exact hnd.1 (List.mem_map.mpr ⟨(c, s), h2, rfl⟩)
      simpa [List.lookup, hne] using ih hnd.2 h2

theorem mem_rangeRows {n base : Nat} (v : Nat → Str) {c : Nat}
    (h1 : base ≤ c) (h2 : c < base + n) :
    (c, v (c - base)) ∈ (List.range n).map (fun i => (base + i, v i)) := by
  refine List.mem_map.mpr ⟨c - base, List.mem_range.mpr (by omega), ?_⟩
  have h3 : base + (c - base) = c := by omega
  rw [h3]

theorem keys_rangeRows (n base : Nat) (v : Nat → Str) :
    ((List.range n).map (fun i => (base + i, v i))).map (fun e => e.1)
      = (List.range n).map (fun i => base + i) := by
  rw [List.map_map]
  rfl

theorem mem_keys_rangeRows (n base : Nat) (v : Nat → Str) {c : Nat} :
    c ∈ ((List.range n).map (fun i => (base + i, v i))).map (fun e => e.1)
      ↔ base ≤ c ∧ c < base + n := by
  rw [keys_rangeRows]
  simp only [List.mem_map, List.mem_range]
  constructor
  · rintro ⟨i, hi, rfl⟩; omega
  · intro h; exact ⟨c - base, by omega, by omega⟩

theorem nodup_keys_rangeRows (n base : Nat) (v : Nat → Str) :
    (((List.range n).map (fun i => (base + i, v i))).map (fun e => e.1)).Nodup := by
  rw [keys_rangeRows]
  exact (List.nodup_range n).map (fun i j hij => by omega)

theorem letterEntries_eq (base : Nat) (v : Nat → Str) :
    letterEntries base v = (List.range 26).map (fun i => (base + i, v i)) := rfl

theorem digitEntries_eq (v : Nat → Str) :
    digitEntries v = (List.range 10).map (fun i => (48 + i, v i)) := rfl

/-! ### Closed forms for the style tables -/

theorem styleMap_structure (m : MStyle) :
    styleMapOf m = ⟨letterEntries 65 (upperVF m), letterEntries 97 (lowerVF m),
      match digitVF m with | some v => digitEntries v | none => []⟩ := by
  cases m <;> rfl

theorem mapCharStr_upper (m : MStyle) {c : Nat} (h1 : 65 ≤ c) (h2 : c < 91) :
    mapCharStr (styleMapOf m) [c] = upperVF m (c - 65) ∧
    (c, upperVF m (c - 65)) ∈ mapEntries (styleMapOf m) := by
  rw [styleMap_structure m]
  have hm : (c, upperVF m (c - 65)) ∈ letterEntries 65 (upperVF m) := by
    rw [letterEntries_eq]; exact mem_rangeRows _ h1 (by omega)
  have hl : (letterEntries 65 (upperVF m)).lookup c = some (upperVF m (c - 65)) := by
    refine lookup_eq_some_of_mem ?_ hm
    rw [letterEntries_eq]; exact nodup_keys_rangeRows 26 65 (upperVF m)
  constructor
  · simp [mapCharStr, hl]
  · exact List.mem_append.mpr (Or.inl (List.mem_append.mpr (Or.inl hm)))

theorem mapCharStr_lower (m : MStyle) {c : Nat} (h1 : 97 ≤ c) (h2 : c < 123) :
    mapCharStr (styleMapOf m) [c] = lowerVF m (c - 97) ∧
    (c, lowerVF m (c - 97)) ∈ mapEntries (styleMapOf m) := by
  rw [styleMap_structure m]
  have hu : (letterEntries 65 (upperVF m)).lookup c = none := by
    refine lookup_eq_none (fun hc => ?_)
    have := (mem_keys_rangeRows 26 65 (upperVF m)).mp
      (by rwa [letterEntries_eq] at hc)
    omega
  have hm : (c, lowerVF m (c - 97)) ∈ letterEntries 97 (lowerVF m) := by
    rw [letterEntries_eq]; exact mem_rangeRows _ h1 (by omega)
  have hl : (letterEntries 97 (lowerVF m)).lookup c = some (lowerVF m (c - 97)) := by
    refine lookup_eq_some_of_mem ?_ hm
    rw [letterEntries_eq]; exact nodup_keys_rangeRows 26 97 (lowerVF m)
  constructor
  · simp [mapCharStr, hu, hl]
  · exact List.mem_append.mpr (Or.inl (List.mem_append.mpr (Or.inr hm)))

theorem mapCharStr_digit (m : MStyle) {c : Nat} (h1 : 48 ≤ c) (h2 : c < 58) :
    (∀ v, digitVF m = some v →
      mapCharStr (styleMapOf m) [c] = v (c - 48) ∧
      (c, v (c - 48)) ∈ mapEntries (styleMapOf m)) ∧
    (digitVF m = none → mapCharStr (styleMapOf m) [c] = [c]) := by
  rw [styleMap_structure m]
  have hu : (letterEntries 65 (upperVF m)).lookup c = none := by
    refine lookup_eq_none (fun hc => ?_)
    have := (mem_keys_rangeRows 26 65 (upperVF m)).mp
      (by rwa [letterEntries_eq] at hc)
    omega
  have hlo : (letterEntries 97 (lowerVF m)).lookup c = none := by
    refine lookup_eq_none (fun hc => ?_)
    have := (mem_keys_rangeRows 26 97 (lowerVF m)).mp
      (by rwa [letterEntries_eq] at hc)
    omega
  constructor
  · intro v hv
    rw [hv]
    have hm : (c, v (c - 48)) ∈ digitEntries v := by
      rw [digitEntries_eq]; exact mem_rangeRows _ h1 (by omega)
    have hd : (digitEntries v).lookup c = some (v (c - 48)) := by
      refine lookup_eq_some_of_mem ?_ hm
      rw [digitEntries_eq]; exact nodup_keys_rangeRows 10 48 v
    constructor
    · simp [mapCharStr, hu, hlo, hd]
    · exact List.mem_append.mpr (Or.inr hm)
  · intro hv
    rw [hv]
    simp [mapCharStr, hu, hlo]

theorem mapEntries_subset_allEntries (m : MStyle) {e : Nat × Str}
    (he : e ∈ mapEntries (styleMapOf m)) : e ∈ allEntries := by
  refine List.mem_flatten.mpr ⟨mapEntries (styleMapOf m),
    List.mem_map.mpr ⟨m, ?_, rfl⟩, he⟩
  cases m <;> simp [styleOrder]

/-! ### The reverse table and emphasis detection -/

theorem revLookup_of_mem {c : Nat} {s : Str} (hm : (c, s) ∈ allEntries) :
    revLookup s = some c := by
  have hmem : (c, s) ∈ allEntries.reverse := List.mem_reverse.mpr hm
  have hsome : (allEntries.reverse.find? (fun e => decide (e.2 = s))).isSome :=
    List.find?_isSome.mpr ⟨(c, s), hmem, by simp⟩
  obtain ⟨e, he⟩ := Option.isSome_iff_exists.mp hsome
  have hpe : e.2 = s := by simpa using List.find?_some he
  have hemem : e ∈ allEntries := List.mem_reverse.mp (List.mem_of_find?_eq_some he)
  have heq : e = (c, s) :=
    List.inj_on_of_nodup_map allValues_nodup hemem hm (by simpa using hpe)
  rw [revLookup, he, heq]
  rfl

theorem revLookup_of_not_value {ch : Str}
    (h : ∀ e ∈ allEntries, e.2 ≠ ch) : revLookup ch = none := by
  rw [revLookup]
  rw [List.find?_eq_none.mpr (fun e he => by
    simpa using h e (List.mem_reverse.mp he))]
  rfl

theorem revLookup_ascii {c : Nat} (h : c < 0x2102) : revLookup [c] = none := by
  refine revLookup_of_not_value (fun e he hc => ?_)
  have := (allEntries_props he).2.1 c (by rw [hc]; exact List.mem_singleton_self c)
  omega

theorem revCharStr_of_mem {c : Nat} {s : Str} (hm : (c, s) ∈ allEntries) :
    revCharStr s = [c] := by
  rw [revCharStr, revLookup_of_mem hm]

theorem revCharStr_ascii {c : Nat} (h : c < 0x2102) : revCharStr [c] = [c] := by
  rw [revCharStr, revLookup_ascii h]

/-- Reverse mapping either leaves a block unchanged or replaces it with a
single ASCII-range unit. -/
theorem revCharStr_shape (b : Str) :
    revCharStr b = b ∨ ∃ p, p < 128 ∧ revCharStr b = [p] := by
  rw [revCharStr]
  cases hr : revLookup b with
  | none => exact Or.inl rfl
  | some p =>
    refine Or.inr ⟨p, ?_, rfl⟩
    rw [revLookup] at hr
    obtain ⟨e, hfind, hp⟩ := Option.map_eq_some'.mp hr
    have := (allEntries_props (List.mem_reverse.mp
      (List.mem_of_find?_eq_some hfind))).1
    omega

theorem taggedEntries_untag :
    taggedEntries.map (fun e => (e.1, e.2.1)) = allEntries := by
  rw [taggedEntries, allEntries, List.map_flatten, List.map_map]
  congr 1

theorem taggedValues_eq :
    taggedEntries.map (fun e => e.2.1) = allEntries.map (fun e => e.2) := by
  have h := congrArg (List.map (fun e : Nat × Str => e.2)) taggedEntries_untag
  simpa [List.map_map] using h

theorem mem_taggedEntries_of_mem {m : MStyle} {e : Nat × Str}
    (he : e ∈ mapEntries (styleMapOf m)) :
    (e.1, e.2, emphasisOfStyle m) ∈ taggedEntries := by
  refine List.mem_flatten.mpr ⟨_, List.mem_map.mpr ⟨m, ?_, rfl⟩,
    List.mem_map.mpr ⟨e, he, rfl⟩⟩
  cases m <;> simp [styleOrder]

/-- Any table row is detected with its own plain character and the
emphasis bucket of its style. -/
theorem detect_of_mem {m : MStyle} {c : Nat} {s : Str}
    (hm : (c, s) ∈ mapEntries (styleMapOf m)) :
    detectCharEmphasis s = ([c], emphasisOfStyle m) := by
  have htag : (c, s, emphasisOfStyle m) ∈ taggedEntries :=
    mem_taggedEntries_of_mem (e := (c, s)) hm
  have hsome : (taggedEntries.find? (fun e => decide (e.2.1 = s))).isSome :=
    List.find?_isSome.mpr ⟨_, htag, by simp⟩
  obtain ⟨e, he⟩ := Option.isSome_iff_exists.mp hsome
  have hval : e.2.1 = s := by simpa using List.find?_some he
  have hmem : e ∈ taggedEntries := List.mem_of_find?_eq_some he
  have hnd : (taggedEntries.map (fun e => e.2.1)).Nodup := by
    rw [taggedValues_eq]; exact allValues_nodup
  have heq : e = (c, s, emphasisOfStyle m) :=
    List.inj_on_of_nodup_map hnd hmem htag (by simpa using hval)
  rw [detectCharEmphasis, he, heq]

theorem detect_unmatched {ch : Str} (h : ∀ e ∈ allEntries, e.2 ≠ ch) :
    detectCharEmphasis ch = (ch, .none) := by
  rw [detectCharEmphasis]
  rw [List.find?_eq_none.mpr (fun e he => by
    simp only [decide_eq_true_eq]
    intro hc
    have hmem : (e.1, e.2.1) ∈ allEntries := by
      rw [← taggedEntries_untag]; exact List.mem_map.mpr ⟨e, he, rfl⟩
    exact h _ hmem hc)]

theorem detect_ascii {c : Nat} (h : c < 0x2102) :
    detectCharEmphasis [c] = ([c], .none) := by
  refine detect_unmatched (fun e he hc => ?_)
  have := (allEntries_props he).2.1 c (by rw [hc]; exact List.mem_singleton_self c)
  omega

/-! ### Per-character consequences for letter and digit sources -/

theorem mapCharStr_alnum (m : MStyle) {c : Nat} (h : isAsciiAlnum c) :
    (c, mapCharStr (styleMapOf m) [c]) ∈ mapEntries (styleMapOf m) ∨
      mapCharStr (styleMapOf m) [c] = [c] := by
  rcases h with h | h | h
  · rcases hv : digitVF m with _ | v
    · exact Or.inr (((mapCharStr_digit m h.1 h.2).2) hv)
    · have hd := ((mapCharStr_digit m h.1 h.2).1) v hv
      rw [hd.1]
      exact Or.inl hd.2
  · have hu := mapCharStr_upper m h.1 h.2
    rw [hu.1]
    exact Or.inl hu.2
  · have hl := mapCharStr_lower m h.1 h.2
    rw [hl.1]
    exact Or.inl hl.2

theorem revCharStr_mapCharStr (m : MStyle) {c : Nat} (h : isAsciiAlnum c) :
    revCharStr (mapCharStr (styleMapOf m) [c]) = [c] := by
  rcases mapCharStr_alnum m h with hm | hm
  · exact revCharStr_of_mem (mapEntries_subset_allEntries m hm)
  · rw [hm]
    refine revCharStr_ascii ?_
    rcases h with h | h | h <;> omega

theorem mapCharStr_simple (m : MStyle) {c : Nat} (h : isAsciiAlnum c) :
    simpleBlock (mapCharStr (styleMapOf m) [c]) = true := by
  rcases mapCharStr_alnum m h with hm | hm
  · exact (allEntries_props (mapEntries_subset_allEntries m hm)).2.2
  · rw [hm]
    have hc : c < 0xD800 := by rcases h with h | h | h <;> omega
    simp only [simpleBlock, isHigh, Bool.not_eq_true']
    exact decide_eq_false (by omega)

theorem mapCharStr_units (m : MStyle) {c : Nat} (h : isAsciiAlnum c) :
    ∀ u ∈ mapCharStr (styleMapOf m) [c], u < 128 ∨ 0x2102 ≤ u := by
  rcases mapCharStr_alnum m h with hm | hm
  · intro u hu
    exact Or.inr ((allEntries_props (mapEntries_subset_allEntries m hm)).2.1 u hu)
  · rw [hm]
    intro u hu
    have hc : c < 128 := by rcases h with h | h | h <;> omega
    rcases List.mem_singleton.mp hu with rfl
    exact Or.inl hc

/-! ### `toUnicodeStyle` bridging equations -/

theorem applyMappedStyle_eq (m : MStyle) (text : Str) :
    applyMappedStyle m text
      = (text.map (fun c => mapCharStr (styleMapOf m) [c])).flatten := by
  rw [applyMappedStyle, splitChars, List.map_map]
  rfl

theorem toUnicodeStyle_mapped (text : Str) (m : MStyle) :
    toUnicodeStyle text (mappedToStyle m) = applyMappedStyle m text := by
  by_cases h : text = []
  · subst h; cases m <;> rfl
  · cases m <;> simp [toUnicodeStyle, mappedToStyle, h]

theorem appendAfterUnits_eq (text : Str) (mark : Nat) :
    appendAfterUnits text mark = (text.map (fun c => [c, mark])).flatten := by
  rw [appendAfterUnits, splitChars, List.map_map]
  rfl

theorem flatten_map_singleton (text : Str) :
    (text.map (fun c => [c])).flatten = text := by
  induction text with
  | nil => rfl
  | cons c rest ih => simp [ih]

/-! ### Claim C1 -/

/-- C1: for every string of printable ASCII letters and digits and every
non-combining (substitution) style, stripping the formatting of the
styled text recovers the original text exactly:
`removeUnicodeFormatting (toUnicodeStyle text S) = text` with the default
`preserveCombining = false`. -/
theorem c1_strip_apply_roundtrip (text : Str) (S : MStyle)
    (h : ∀ c ∈ text, isAsciiAlnum c) :
    removeUnicodeFormatting (toUnicodeStyle text (mappedToStyle S)) = text := by
  rw [toUnicodeStyle_mapped, applyMappedStyle_eq]
  have hstrip :
      stripCombining ((text.map (fun c => mapCharStr (styleMapOf S) [c])).flatten)
        = (text.map (fun c => mapCharStr (styleMapOf S) [c])).flatten := by
    refine List.filter_eq_self.mpr (fun a ha => ?_)
    obtain ⟨b, hb, hab⟩ := List.mem_flatten.mp ha
    obtain ⟨c, hc, rfl⟩ := List.mem_map.mp hb
    have hu := mapCharStr_units S (h c hc) a hab
    have : a ≠ COMBINING_UNDERLINE ∧ a ≠ COMBINING_STRIKETHROUGH := by
      rw [COMBINING_UNDERLINE, COMBINING_STRIKETHROUGH]
      rcases hu with h1 | h1 <;> omega
    simp [this.1, this.2]
  have hchunks : Chunks (text.map (fun c => mapCharStr (styleMapOf S) [c])) := by
    refine chunks_of_simple (fun b hb => ?_)
    obtain ⟨c, hc, rfl⟩ := List.mem_map.mp hb
    exact mapCharStr_simple S (h c hc)
  rw [removeUnicodeFormatting]
  simp only [Bool.false_eq_true, if_false]
  rw [hstrip, arrayFrom_of_chunks hchunks, List.map_map]
  have : ((fun ch => revCharStr ch) ∘ fun c => mapCharStr (styleMapOf S) [c])
      = fun c => revCharStr (mapCharStr (styleMapOf S) [c]) := rfl
  rw [this, List.map_congr_left
    (fun c hc => revCharStr_mapCharStr S (h c hc)), flatten_map_singleton]

/-- C1 witness: the roundtrip at the concrete text consisting of H, i
and the digit 7, in the script style. -/
theorem c1_witness :
    removeUnicodeFormatting (toUnicodeStyle [72, 105, 55]
      (mappedToStyle .script)) = [72, 105, 55] :=
  c1_strip_apply_roundtrip [72, 105, 55] .script (by decide)

/-! ### Claim C5 -/

/-- C5 counterexample: the variant name `constructor` has no entry in the
variant-emphasis map, yet conversion is not a no-op: the property access
finds the truthy inherited `Object.prototype.constructor`, the guard does
not fire, and the bold A input comes back as plain A. -/
theorem c5_counterexample :
    kwConstructor ∉ variantEmphasisMap.map (fun e => e.1)
    ∧ convertPreservingEmphasis (fromCodePoint 0x1D400) kwConstructor = [65]
    ∧ convertPreservingEmphasis (fromCodePoint 0x1D400) kwConstructor
        ≠ fromCodePoint 0x1D400 := by
  decide

/-- C5 (amended): for every text and every target-variant string that
neither is an own key of the variant-emphasis map nor names an
`Object.prototype` property, `convertPreservingEmphasis` returns the text
unchanged (and, being a total function of the embedding, never throws);
for `Object.prototype` property names the no-op guarantee fails. -/
theorem c5_amended_noop (text tv : Str)
    (h1 : tv ∉ variantEmphasisMap.map (fun e => e.1))
    (h2 : tv ∉ objectProtoNames) :
    convertPreservingEmphasis text tv = text := by
  have hfind : variantEmphasisMap.find? (fun e => decide (e.1 = tv)) = none := by
    refine List.find?_eq_none.mpr (fun e he => ?_)
    simp only [decide_eq_true_eq]
    exact fun hc => h1 (List.mem_map.mpr ⟨e, he, hc⟩)
  have hv : variantLookup tv = none := by
    rw [variantLookup, hfind]
    simp [h2]
  rw [convertPreservingEmphasis, hv]

/-- C5 witness: the single-letter variant name x is neither an own key
nor a prototype property name, so conversion of the letter A is a no-op. -/
theorem c5_witness : convertPreservingEmphasis [65] [120] = [65] :=
  c5_amended_noop [65] [120] (by decide) (by decide)

/-! ### Claim C7 -/

/-- C7: the style tables use closed-form offsets with fixed exceptions:
italic lowercase h is the Planck-constant glyph U+210E (not the
contiguous-offset code point 1D44E+7), and the script style maps
B, E, F, H, I, L, M, R, e, g, o to the pre-existing BMP glyphs. -/
theorem c7_table_exceptions :
    toUnicodeStyle [104] (mappedToStyle .italic) = [0x210E]
    ∧ [0x210E] ≠ fromCodePoint (0x1D44E + 7)
    ∧ toUnicodeStyle [66] (mappedToStyle .script) = [0x212C]
    ∧ toUnicodeStyle [69] (mappedToStyle .script) = [0x2130]
    ∧ toUnicodeStyle [70] (mappedToStyle .script) = [0x2131]
    ∧ toUnicodeStyle [72] (mappedToStyle .script) = [0x210B]
    ∧ toUnicodeStyle [73] (mappedToStyle .script) = [0x2110]
    ∧ toUnicodeStyle [76] (mappedToStyle .script) = [0x2112]
    ∧ toUnicodeStyle [77] (mappedToStyle .script) = [0x2133]
    ∧ toUnicodeStyle [82] (mappedToStyle .script) = [0x211B]
    ∧ toUnicodeStyle [101] (mappedToStyle .script) = [0x212F]
    ∧ toUnicodeStyle [103] (mappedToStyle .script) = [0x210A]
    ∧ toUnicodeStyle [111] (mappedToStyle .script) = [0x2134] := by
  decide

/-! ### Claim C8 -/

/-- C8: every per-style table is injective, the merged reverse table is
collision-free across all styles, and reverse lookup recovers the unique
ASCII source of every styled value. -/
theorem c8_injective_reverse :
    ((allEntries.map (fun e => e.2)).Nodup)
    ∧ (∀ m : MStyle, ((mapEntries (styleMapOf m)).map (fun e => e.2)).Nodup)
    ∧ (∀ e ∈ allEntries, revLookup e.2 = some e.1) := by
  refine ⟨allValues_nodup, fun m => ?_, fun e he => ?_⟩
  · have hmem : mapEntries (styleMapOf m)
        ∈ styleOrder.map (fun s => mapEntries (styleMapOf s)) :=
      List.mem_map.mpr ⟨m, by cases m <;> simp [styleOrder], rfl⟩
    have hsub : List.Sublist (mapEntries (styleMapOf m)) allEntries :=
      List.sublist_flatten_of_mem hmem
    exact allValues_nodup.sublist (hsub.map (fun e => e.2))
  · have he2 : (e.1, e.2) ∈ allEntries := by rwa [Prod.mk.eta]
    exact revLookup_of_mem he2

/-- C8 witness: reverse lookup of mathematical bold A yields plain A, and
the bold table is injective. -/
theorem c8_witness :
    revLookup (fromCodePoint 0x1D400) = some 65
    ∧ ((mapEntries (styleMapOf .bold)).map (fun e => e.2)).Nodup :=
  ⟨c8_injective_reverse.2.2 (65, fromCodePoint 0x1D400) (by decide),
   c8_injective_reverse.2.1 .bold⟩

/-! ### Claim C3 -/

theorem flatten_map_pair_length (text : Str) (mark : Nat) :
    ((text.map (fun c => [c, mark])).flatten).length = 2 * text.length := by
  induction text with
  | nil => rfl
  | cons c rest ih =>
    simp only [List.map_cons, List.flatten_cons, List.length_append,
      List.length_cons, List.length_nil, List.length_singleton, ih]
    omega

theorem arrayFrom_no_high (s : Str) (h : ∀ c ∈ s, isHigh c = false) :
    arrayFrom s = s.map (fun c => [c]) := by
  induction s with
  | nil => rfl
  | cons c rest ih =>
    rw [arrayFrom_cons_not_high c rest (h c (by simp)), List.map_cons,
      ih (fun x hx => h x (by simp [hx]))]

/-- C3 counterexample: on the input consisting of the single already
styled character mathematical bold A (a surrogate pair), underline does
not double the code-point count: the marker is inserted between the two
surrogates, breaking the pair, and the output has 4 code points instead
of 2. -/
theorem c3_counterexample :
    ¬ ((arrayFrom (toUnicodeStyle [0xD835, 0xDC00] .underline)).length
        = 2 * (arrayFrom [0xD835, 0xDC00]).length) := by
  decide

/-- C3 (amended): `underline` and `strikethrough` append their combining
marker after every UTF-16 code unit (not after every code point), so the
code-unit count doubles; `boldUnderline` and `boldStrikethrough` first
apply the bold mapping and then append the marker after every code unit
of the bold result; the code-point count doubles only for inputs without
surrogate units; and underline of the two characters H, i yields the four
code points H, U+0332, i, U+0332. -/
theorem c3_amended_units (text : Str) :
    toUnicodeStyle text .underline
      = (text.map (fun c => [c, COMBINING_UNDERLINE])).flatten
    ∧ (toUnicodeStyle text .underline).length = 2 * text.length
    ∧ toUnicodeStyle text .strikethrough
      = (text.map (fun c => [c, COMBINING_STRIKETHROUGH])).flatten
    ∧ toUnicodeStyle text .boldUnderline
      = ((toUnicodeStyle text .bold).map (fun c => [c, COMBINING_UNDERLINE])).flatten
    ∧ toUnicodeStyle text .boldStrikethrough
      = ((toUnicodeStyle text .bold).map (fun c => [c, COMBINING_STRIKETHROUGH])).flatten
    ∧ ((∀ c ∈ text, isHigh c = false ∧ isLow c = false) →
        (arrayFrom (toUnicodeStyle text .underline)).length
          = 2 * (arrayFrom text).length)
    ∧ toUnicodeStyle [72, 105] .underline
      = [72, COMBINING_UNDERLINE, 105, COMBINING_UNDERLINE] := by
  have hu : toUnicodeStyle text .underline
      = (text.map (fun c => [c, COMBINING_UNDERLINE])).flatten := by
    by_cases h : text = []
    · subst h; rfl
    · rw [toUnicodeStyle]
      simp only [h, if_false]
      exact appendAfterUnits_eq text COMBINING_UNDERLINE
  have hs : toUnicodeStyle text .strikethrough
      = (text.map (fun c => [c, COMBINING_STRIKETHROUGH])).flatten := by
    by_cases h : text = []
    · subst h; rfl
    · rw [toUnicodeStyle]
      simp only [h, if_false]
      exact appendAfterUnits_eq text COMBINING_STRIKETHROUGH
  have hbold : toUnicodeStyle text .bold = applyMappedStyle .bold text :=
    toUnicodeStyle_mapped text .bold
  have hbu : toUnicodeStyle text .boldUnderline
      = ((toUnicodeStyle text .bold).map (fun c => [c, COMBINING_UNDERLINE])).flatten := by
    by_cases h : text = []
    · subst h; rfl
    · rw [toUnicodeStyle]
      simp only [h, if_false]
      rw [hbold, appendAfterUnits_eq]
  have hbs : toUnicodeStyle text .boldStrikethrough
      = ((toUnicodeStyle text .bold).map (fun c => [c, COMBINING_STRIKETHROUGH])).flatten := by
    by_cases h : text = []
    · subst h; rfl
    · rw [toUnicodeStyle]
      simp only [h, if_false]
      rw [hbold, appendAfterUnits_eq]
  refine ⟨hu, ?_, hs, hbu, hbs, ?_, by decide⟩
  · rw [hu]; exact flatten_map_pair_length text COMBINING_UNDERLINE
  · intro hns
    rw [hu]
    have hflat : ∀ u ∈ (text.map (fun c => [c, COMBINING_UNDERLINE])).flatten,
        isHigh u = false := by
      intro u hmem
      obtain ⟨b, hb, hub⟩ := List.mem_flatten.mp hmem
      obtain ⟨c, hc, rfl⟩ := List.mem_map.mp hb
      rcases List.mem_cons.mp hub with rfl | h2
      · exact (hns u hc).1
      · rcases List.mem_singleton.mp (by simpa using h2) with rfl
        rfl
    rw [arrayFrom_no_high _ hflat,
      arrayFrom_no_high text (fun c hc => (hns c hc).1),
      List.length_map, List.length_map]
    exact flatten_map_pair_length text COMBINING_UNDERLINE

/-- C3 witness: for the surrogate-free input H, i the code-point count of
the underlined result is twice that of the input. -/
theorem c3_witness :
    (arrayFrom (toUnicodeStyle [72, 105] .underline)).length
      = 2 * (arrayFrom [72, 105]).length :=
  (c3_amended_units [72, 105]).2.2.2.2.2.1 (by decide)

/-! ### Claim C9 -/

theorem cleanSpec_eq (t : Str) :
    ((splitNL t).map trimStr).filter (fun l => decide (l ≠ []))
      = (keptLines t).map trimStr := by
  rw [List.filter_map]
  rfl

/-- C9: each list formatter splits on newlines, drops the lines whose
trim is empty, trims the remaining lines and prefixes the fixed marker
(with 1-based consecutive ordinals for the numbered list); in particular
the bullet formatter on the text a, blank line, b yields bullet-a newline
bullet-b, and the numbered formatter on x, y, z yields 1. x, 2. y, 3. z. -/
theorem c9_list_formatters :
    (∀ t, toBulletList t = joinNL ((((splitNL t).map trimStr).filter
      (fun l => decide (l ≠ []))).map (fun l => [0x2022, 32] ++ l)))
    ∧ (∀ t, toNumberedList t = joinNL (((((splitNL t).map trimStr).filter
      (fun l => decide (l ≠ []))).enum).map
        (fun p => natDigits (p.1 + 1) ++ [46, 32] ++ p.2)))
    ∧ (∀ t, toCheckboxList t = joinNL ((((splitNL t).map trimStr).filter
      (fun l => decide (l ≠ []))).map (fun l => [0x2610, 32] ++ l)))
    ∧ (∀ t, toAscendingList t = joinNL ((((splitNL t).map trimStr).filter
      (fun l => decide (l ≠ []))).map (fun l => [0x2197, 32] ++ l)))
    ∧ (∀ t, toDescendingList t = joinNL ((((splitNL t).map trimStr).filter
      (fun l => decide (l ≠ []))).map (fun l => [0x2198, 32] ++ l)))
    ∧ toBulletList [97, 10, 10, 98] = [0x2022, 32, 97, 10, 0x2022, 32, 98]
    ∧ toNumberedList [120, 10, 121, 10, 122]
      = [49, 46, 32, 120, 10, 50, 46, 32, 121, 10, 51, 46, 32, 122] := by
  refine ⟨fun t => ?_, fun t => ?_, fun t => ?_, fun t => ?_, fun t => ?_,
    by decide, by decide⟩
  · rw [toBulletList, cleanSpec_eq, List.map_map]
    rfl
  · rw [toNumberedList, cleanSpec_eq, List.enum_map, List.map_map]
    rfl
  · rw [toCheckboxList, cleanSpec_eq, List.map_map]
    rfl
  · rw [toAscendingList, cleanSpec_eq, List.map_map]
    rfl
  · rw [toDescendingList, cleanSpec_eq, List.map_map]
    rfl

/-! ### Claim C6 -/

theorem detect_bucket_of_style (m : MStyle) :
    ∀ e ∈ mapEntries (styleMapOf m),
      (detectCharEmphasis e.2).2 = emphasisOfStyle m := by
  intro e he
  have h2 : (e.1, e.2) ∈ mapEntries (styleMapOf m) := by rwa [Prod.mk.eta]
  rw [detect_of_mem h2]

/-- C6: `detectCharEmphasis` classifies the sans-serif bold, italic and
bold-italic tables into the same buckets as their serif counterparts,
classifies every script, monospace and double-struck character as
emphasis `none`, and returns `none` for plain ASCII and for any character
not present in the tables. -/
theorem c6_detect_emphasis_classification :
    (∀ e ∈ mapEntries (styleMapOf .boldSans), (detectCharEmphasis e.2).2 = .bold)
    ∧ (∀ e ∈ mapEntries (styleMapOf .bold), (detectCharEmphasis e.2).2 = .bold)
    ∧ (∀ e ∈ mapEntries (styleMapOf .italicSans),
        (detectCharEmphasis e.2).2 = .italic)
    ∧ (∀ e ∈ mapEntries (styleMapOf .italic), (detectCharEmphasis e.2).2 = .italic)
    ∧ (∀ e ∈ mapEntries (styleMapOf .boldItalicSans),
        (detectCharEmphasis e.2).2 = .boldItalic)
    ∧ (∀ e ∈ mapEntries (styleMapOf .boldItalic),
        (detectCharEmphasis e.2).2 = .boldItalic)
    ∧ (∀ e ∈ mapEntries (styleMapOf .script), (detectCharEmphasis e.2).2 = .none)
    ∧ (∀ e ∈ mapEntries (styleMapOf .monospace),
        (detectCharEmphasis e.2).2 = .none)
    ∧ (∀ e ∈ mapEntries (styleMapOf .doublestruck),
        (detectCharEmphasis e.2).2 = .none)
    ∧ (∀ c : Nat, c < 128 → detectCharEmphasis [c] = ([c], .none))
    ∧ (∀ ch : Str, (∀ e ∈ allEntries, e.2 ≠ ch) →
        detectCharEmphasis ch = (ch, .none)) :=
  ⟨detect_bucket_of_style .boldSans, detect_bucket_of_style .bold,
   detect_bucket_of_style .italicSans, detect_bucket_of_style .italic,
   detect_bucket_of_style .boldItalicSans, detect_bucket_of_style .boldItalic,
   detect_bucket_of_style .script, detect_bucket_of_style .monospace,
   detect_bucket_of_style .doublestruck,
   fun _ hc => detect_ascii (by omega),
   fun _ h => detect_unmatched h⟩

/-- C6 witness: sans-serif bold a is classified bold, and the question
mark (unmapped ASCII) is classified none. -/
theorem c6_witness :
    (detectCharEmphasis (fromCodePoint 0x1D5EE)).2 = .bold
    ∧ detectCharEmphasis [63] = ([63], .none) :=
  ⟨c6_detect_emphasis_classification.1 (97, fromCodePoint 0x1D5EE) (by decide),
   c6_detect_emphasis_classification.2.2.2.2.2.2.2.2.2.1 63 (by omega)⟩

/-! ### Claim C10 -/

theorem headNotLow_map_rev {bs : List Str} (h : Chunks bs)
    (hn : headNotLow bs.flatten) :
    headNotLow (bs.map revCharStr).flatten := by
  cases bs with
  | nil => intro d hd; simp at hd
  | cons b rest =>
    have hbne : b ≠ [] := h.ne_nil b (by simp)
    rcases revCharStr_shape b with hr | ⟨p, hp, hr⟩
    · rw [List.map_cons, hr]
      intro d hd
      apply hn d
      cases b with
      | nil => exact absurd rfl hbne
      | cons u us => simpa using hd
    · rw [List.map_cons, hr]
      intro d hd
      simp only [List.flatten_cons, List.cons_append, List.nil_append,
        List.head?_cons, Option.some.injEq] at hd
      rw [← hd, isLow]
      exact decide_eq_false (by omega)

theorem chunks_map_rev {bs : List Str} (h : Chunks bs) :
    Chunks (bs.map revCharStr) := by
  induction h with
  | nil => exact Chunks.nil
  | one c bs hc hbs ih =>
    rcases revCharStr_shape [c] with hr | ⟨p, hp, hr⟩
    · rw [List.map_cons, hr]
      exact Chunks.one c _ hc ih
    · rw [List.map_cons, hr]
      refine Chunks.one p _ ?_ ih
      rw [isHigh]
      exact decide_eq_false (by omega)
  | two hu lu bs hh hl hbs ih =>
    rcases revCharStr_shape [hu, lu] with hr | ⟨p, hp, hr⟩
    · rw [List.map_cons, hr]
      exact Chunks.two hu lu _ hh hl ih
    · rw [List.map_cons, hr]
      refine Chunks.one p _ ?_ ih
      rw [isHigh]
      exact decide_eq_false (by omega)
  | lone c bs hc hn hbs ih =>
    rcases revCharStr_shape [c] with hr | ⟨p, hp, hr⟩
    · rw [List.map_cons, hr]
      exact Chunks.lone c _ hc (headNotLow_map_rev hbs hn) ih
    · rw [List.map_cons, hr]
      refine Chunks.one p _ ?_ ih
      rw [isHigh]
      exact decide_eq_false (by omega)

theorem revCharStr_idem (b : Str) :
    revCharStr (revCharStr b) = revCharStr b := by
  rcases revCharStr_shape b with hr | ⟨p, hp, hr⟩
  · rw [hr]
    exact hr
  · rw [hr]
    exact revCharStr_ascii (by omega)

/-- C10: `removeUnicodeFormatting` with the default
`preserveCombining = false` is idempotent: one pass removes all combining
underline/strikethrough marks and maps every styled code point to ASCII,
and a second pass leaves the result unchanged. -/
theorem c10_remove_idempotent (t : Str) :
    removeUnicodeFormatting (removeUnicodeFormatting t)
      = removeUnicodeFormatting t := by
  have hch : Chunks (arrayFrom (stripCombining t)) :=
    chunks_arrayFrom (stripCombining t)
  have hmapch : Chunks ((arrayFrom (stripCombining t)).map revCharStr) :=
    chunks_map_rev hch
  have hmarkfree : ∀ u ∈ ((arrayFrom (stripCombining t)).map revCharStr).flatten,
      (!(u == COMBINING_UNDERLINE || u == COMBINING_STRIKETHROUGH)) = true := by
    intro u hu
    obtain ⟨b, hb, hub⟩ := List.mem_flatten.mp hu
    obtain ⟨b0, hb0, rfl⟩ := List.mem_map.mp hb
    rcases revCharStr_shape b0 with hr | ⟨p, hp, hr⟩
    · rw [hr] at hub
      have hus : u ∈ stripCombining t := by
        rw [← arrayFrom_flatten (stripCombining t)]
        exact List.mem_flatten.mpr ⟨b0, hb0, hub⟩
      exact (List.mem_filter.mp hus).2
    · rw [hr] at hub
      rcases List.mem_singleton.mp hub with rfl
      rw [COMBINING_UNDERLINE, COMBINING_STRIKETHROUGH]
      simp only [Bool.not_eq_true', Bool.or_eq_false_iff, beq_eq_false_iff_ne]
      omega
  have key : ∀ s : Str, removeUnicodeFormatting s
      = ((arrayFrom (stripCombining s)).map revCharStr).flatten := fun _ => rfl
  rw [key t, key (((arrayFrom (stripCombining t)).map revCharStr).flatten)]
  have hstr : stripCombining (((arrayFrom (stripCombining t)).map revCharStr).flatten)
      = ((arrayFrom (stripCombining t)).map revCharStr).flatten := by
    rw [stripCombining]
    exact List.filter_eq_self.mpr hmarkfree
  rw [hstr, arrayFrom_of_chunks hmapch, List.map_map]
  exact congrArg List.flatten
    (List.map_congr_left (fun b _ => revCharStr_idem b))

/-! ### Machinery for `convertPreservingEmphasis` -/

theorem mapCharStr_alnum_full (m : MStyle) (hm : digitVF m ≠ none) {c : Nat}
    (h : isAsciiAlnum c) :
    (c, mapCharStr (styleMapOf m) [c]) ∈ mapEntries (styleMapOf m) := by
  rcases h with h | h | h
  · rcases hv : digitVF m with _ | v
    · exact absurd hv hm
    · have hd := ((mapCharStr_digit m h.1 h.2).1) v hv
      rw [hd.1]
      exact hd.2
  · have hu := mapCharStr_upper m h.1 h.2
    rw [hu.1]
    exact hu.2
  · have hl := mapCharStr_lower m h.1 h.2
    rw [hl.1]
    exact hl.2

theorem isCombMarkStr_of_units {b : Str}
    (h : ∀ u ∈ b, u < 128 ∨ 0x2102 ≤ u) : isCombMarkStr b = false := by
  rw [isCombMarkStr]
  refine decide_eq_false (fun hb => ?_)
  have e1 : COMBINING_UNDERLINE = 0x332 := rfl
  have e2 : COMBINING_STRIKETHROUGH = 0x336 := rfl
  rcases hb with hb | hb
  · have hm := h COMBINING_UNDERLINE
      (by rw [hb]; exact List.mem_singleton_self _)
    rw [e1] at hm
    omega
  · have hm := h COMBINING_STRIKETHROUGH
      (by rw [hb]; exact List.mem_singleton_self _)
    rw [e2] at hm
    omega

theorem gStep_clean {acc : List Str × List (Int × Str)} {ch : Str}
    (h : isCombMarkStr ch = false) :
    gStep acc ch = (acc.1 ++ [ch], acc.2) := by
  rw [gStep, h]
  simp

theorem foldl_gStep_clean {bs : List Str}
    (h : ∀ b ∈ bs, isCombMarkStr b = false) :
    ∀ clean comb, bs.foldl gStep (clean, comb) = (clean ++ bs, comb) := by
  induction bs with
  | nil => intro clean comb; simp
  | cons b rest ih =>
    intro clean comb
    rw [List.foldl_cons, gStep_clean (h b (by simp)),
      ih (fun x hx => h x (by simp [hx])) (clean ++ [b]) comb]
    simp

theorem enumFrom_map_snd_fn {α : Type} (f : Str → α) :
    ∀ (n : Nat) (l : List Str),
      (List.enumFrom n l).map (fun p => f p.2) = l.map f
  | _, [] => rfl
  | n, b :: rest => by
    rw [List.enumFrom_cons, List.map_cons, List.map_cons,
      enumFrom_map_snd_fn f (n + 1) rest]

theorem enum_map_snd_fn {α : Type} (f : Str → α) (l : List Str) :
    (l.enum).map (fun p => f p.2) = l.map f :=
  enumFrom_map_snd_fn f 0 l

theorem convert_of_lookup {tv : Str} {row : EmphRow}
    (h : variantLookup tv = some row) (text : Str) :
    convertPreservingEmphasis text tv
      = ((((arrayFrom text).foldl gStep ([], [])).1.enum).map
          (fun p => convertChar row p.2
            ++ lookupMarks ((arrayFrom text).foldl gStep ([], [])).2
              (p.1 : Int))).flatten := by
  rw [convertPreservingEmphasis, h]

theorem convertChar_eq {row : EmphRow} {ch : Str} {p : Nat}
    {emph : CharEmphasis} {st : UnicodeStyle}
    (hdet : detectCharEmphasis ch = ([p], emph))
    (hrow : row emph = .style st) :
    convertChar row ch = toUnicodeStyle [p] st := by
  rw [convertChar, hdet]
  simp [hrow]

theorem toUnicodeStyle_single (m : MStyle) (c : Nat) :
    toUnicodeStyle [c] (mappedToStyle m) = mapCharStr (styleMapOf m) [c] := by
  rw [toUnicodeStyle_mapped, applyMappedStyle_eq]
  simp

/-! ### Claim C2 -/

/-- C2: converting a text made of a bold-styled substring followed by a
plain ASCII substring to the sansNormal variant maps every bold character
to its boldSans code point and every plain character to its sansNormal
code point; detection on the resulting characters classifies the former
as bold and the latter as none. -/
theorem c2_convert_preserving_emphasis_sans (s1 s2 : Str)
    (h1 : ∀ c ∈ s1, isAsciiAlnum c) (h2 : ∀ c ∈ s2, isAsciiAlnum c) :
    convertPreservingEmphasis
        (toUnicodeStyle s1 (mappedToStyle .bold) ++ s2) kwSansNormal
      = toUnicodeStyle s1 (mappedToStyle .boldSans)
        ++ toUnicodeStyle s2 (mappedToStyle .sansNormal)
    ∧ (∀ c ∈ s1,
        (detectCharEmphasis (mapCharStr (styleMapOf .boldSans) [c])).2 = .bold)
    ∧ (∀ c ∈ s2,
        (detectCharEmphasis (mapCharStr (styleMapOf .sansNormal) [c])).2
          = .none) := by
  refine ⟨?_, ?_, ?_⟩
  · have hlook : variantLookup kwSansNormal = some sansNormalRow := rfl
    rw [convert_of_lookup hlook, toUnicodeStyle_mapped s1 .bold,
      applyMappedStyle_eq, toUnicodeStyle_mapped s1 .boldSans,
      applyMappedStyle_eq, toUnicodeStyle_mapped s2 .sansNormal,
      applyMappedStyle_eq]
    have hflat : (s1.map (fun c => mapCharStr (styleMapOf .bold) [c])).flatten ++ s2
        = ((s1.map (fun c => mapCharStr (styleMapOf .bold) [c]))
            ++ s2.map (fun c => [c])).flatten := by
      rw [List.flatten_append, flatten_map_singleton]
    have hunits : ∀ b ∈ (s1.map (fun c => mapCharStr (styleMapOf .bold) [c]))
        ++ s2.map (fun c => [c]), ∀ u ∈ b, u < 128 ∨ 0x2102 ≤ u := by
      intro b hb
      rcases List.mem_append.mp hb with hb | hb
      · obtain ⟨c, hc, rfl⟩ := List.mem_map.mp hb
        exact mapCharStr_units .bold (h1 c hc)
      · obtain ⟨c, hc, rfl⟩ := List.mem_map.mp hb
        intro u hu
        rcases List.mem_singleton.mp hu with rfl
        have := h2 u hc
        rcases this with h | h | h <;> omega
    have hchunks : Chunks ((s1.map (fun c => mapCharStr (styleMapOf .bold) [c]))
        ++ s2.map (fun c => [c])) := by
      refine chunks_of_simple (fun b hb => ?_)
      rcases List.mem_append.mp hb with hb | hb
      · obtain ⟨c, hc, rfl⟩ := List.mem_map.mp hb
        exact mapCharStr_simple .bold (h1 c hc)
      · obtain ⟨c, hc, rfl⟩ := List.mem_map.mp hb
        have hcc := h2 c hc
        have : c < 0xD800 := by rcases hcc with h | h | h <;> omega
        simp only [simpleBlock, isHigh, Bool.not_eq_true']
        exact decide_eq_false (by omega)
    rw [hflat, arrayFrom_of_chunks hchunks,
      foldl_gStep_clean (fun b hb => isCombMarkStr_of_units (hunits b hb)) [] []]
    simp only [List.nil_append]
    have hmarks : ∀ p : Nat × Str,
        convertChar sansNormalRow p.2 ++ lookupMarks [] (p.1 : Int)
          = convertChar sansNormalRow p.2 := by
      intro p
      simp [lookupMarks]
    rw [List.map_congr_left (fun p _ => hmarks p),
      enum_map_snd_fn (convertChar sansNormalRow), List.map_append,
      List.map_map, List.map_map, List.flatten_append]
    congr 1
    · refine congrArg List.flatten (List.map_congr_left (fun c hc => ?_))
      have hdet : detectCharEmphasis (mapCharStr (styleMapOf .bold) [c])
          = ([c], .bold) :=
        detect_of_mem (mapCharStr_alnum_full .bold (by simp [digitVF]) (h1 c hc))
      rw [Function.comp_apply,
        convertChar_eq hdet (by rfl : sansNormalRow .bold = .style .boldSans)]
      exact toUnicodeStyle_single .boldSans c
    · refine congrArg List.flatten (List.map_congr_left (fun c hc => ?_))
      have hcc := h2 c hc
      have hdet : detectCharEmphasis [c] = ([c], .none) :=
        detect_ascii (by rcases hcc with h | h | h <;> omega)
      rw [Function.comp_apply,
        convertChar_eq hdet (by rfl : sansNormalRow .none = .style .sansNormal)]
      exact toUnicodeStyle_single .sansNormal c
  · intro c hc
    rw [detect_of_mem (mapCharStr_alnum_full .boldSans (by simp [digitVF])
      (h1 c hc))]
    rfl
  · intro c hc
    rw [detect_of_mem (mapCharStr_alnum_full .sansNormal (by simp [digitVF])
      (h2 c hc))]
    rfl

/-- C2 witness: the bold word Hi followed by plain yo converts to
boldSans Hi followed by sansNormal yo, with the stated detections. -/
theorem c2_witness :
    convertPreservingEmphasis
        (toUnicodeStyle [72, 105] (mappedToStyle .bold) ++ [121, 111])
        kwSansNormal
      = toUnicodeStyle [72, 105] (mappedToStyle .boldSans)
        ++ toUnicodeStyle [121, 111] (mappedToStyle .sansNormal) :=
  (c2_convert_preserving_emphasis_sans [72, 105] [121, 111]
    (by decide) (by decide)).1

/-! ### Claim C4 -/

theorem lookupMarks_nil (j : Int) : lookupMarks [] j = [] := rfl

theorem lookupMarks_cons_pos {e : Int × Str} {rest : List (Int × Str)}
    {j : Int} (h : e.1 = j) : lookupMarks (e :: rest) j = e.2 := by
  rw [lookupMarks, List.find?_cons_of_pos _ (by simpa using h)]

theorem lookupMarks_cons_neg {e : Int × Str} {rest : List (Int × Str)}
    {j : Int} (h : e.1 ≠ j) :
    lookupMarks (e :: rest) j = lookupMarks rest j := by
  rw [lookupMarks, List.find?_cons_of_neg _ (by simpa using h)]
  rfl

theorem lookupMarks_pushMark (comb : List (Int × Str)) (i : Int) (m : Str)
    (j : Int) :
    lookupMarks (pushMark comb i m) j
      = if j = i then lookupMarks comb i ++ m else lookupMarks comb j := by
  induction comb with
  | nil =>
    by_cases hj : j = i
    · subst hj
      rw [pushMark, lookupMarks_cons_pos rfl, if_pos rfl, lookupMarks_nil,
        List.nil_append]
    · rw [pushMark, lookupMarks_cons_neg (fun h => hj h.symm), if_neg hj]
  | cons e rest ih =>
    by_cases he : e.1 = i
    · rw [pushMark, if_pos he]
      by_cases hj : j = i
      · subst hj
        rw [if_pos rfl, lookupMarks_cons_pos he]
        exact lookupMarks_cons_pos (by simpa using he)
      · have hne : e.1 ≠ j := fun h => hj (h ▸ he)
        rw [if_neg hj, lookupMarks_cons_neg hne]
        exact lookupMarks_cons_neg (by simpa using hne)
    · rw [pushMark, if_neg he]
      by_cases hj : e.1 = j
      · have hji : j ≠ i := fun h => he (hj.symm ▸ h)
        rw [if_neg hji, lookupMarks_cons_pos hj, lookupMarks_cons_pos hj]
      · rw [lookupMarks_cons_neg hj, ih]
        by_cases hji : j = i
        · rw [if_pos hji, if_pos hji]
          subst hji
          rw [lookupMarks_cons_neg hj]
        · rw [if_neg hji, if_neg hji, lookupMarks_cons_neg hj]

theorem lookupMarks_markFold (ms : Str) (i : Int) :
    ∀ (comb : List (Int × Str)) (j : Int),
      lookupMarks (ms.foldl (fun cb u => pushMark cb i [u]) comb) j
        = if j = i then lookupMarks comb i ++ ms else lookupMarks comb j := by
  induction ms with
  | nil =>
    intro comb j
    by_cases hj : j = i
    · subst hj; simp
    · simp [hj]
  | cons u us ih =>
    intro comb j
    rw [List.foldl_cons, ih (pushMark comb i [u]) j]
    by_cases hj : j = i
    · subst hj
      rw [if_pos rfl, if_pos rfl, lookupMarks_pushMark, if_pos rfl,
        List.append_assoc, List.singleton_append]
    · rw [if_neg hj, if_neg hj, lookupMarks_pushMark, if_neg hj]

theorem foldl_gStep_marks (ms : Str)
    (h : ∀ u ∈ ms, isCombMarkStr [u] = true) :
    ∀ (clean : List Str) (comb : List (Int × Str)),
      (ms.map (fun u => [u])).foldl gStep (clean, comb)
        = (clean, ms.foldl
            (fun cb u => pushMark cb ((clean.length : Int) - 1) [u]) comb) := by
  induction ms with
  | nil => intro clean comb; rfl
  | cons u us ih =>
    intro clean comb
    rw [List.map_cons, List.foldl_cons, List.foldl_cons]
    have hg : gStep (clean, comb) [u]
        = (clean, pushMark comb ((clean.length : Int) - 1) [u]) := by
      rw [gStep, h u (by simp)]
      simp
    rw [hg, ih (fun x hx => h x (by simp [hx])) clean _]

theorem foldl_gStep_blocks (L : List (Str × Str))
    (hL : ∀ p ∈ L, isCombMarkStr p.1 = false
      ∧ ∀ u ∈ p.2, isCombMarkStr [u] = true) :
    ∀ (clean : List Str) (comb : List (Int × Str)),
      ((L.map (fun p => p.1 :: p.2.map (fun u => [u]))).flatten).foldl
          gStep (clean, comb)
        = (clean ++ L.map (fun p => p.1), combOfBlocks clean.length L comb) := by
  induction L with
  | nil => intro clean comb; simp [combOfBlocks]
  | cons p rest ih =>
    intro clean comb
    rw [List.map_cons, List.flatten_cons, List.cons_append, List.foldl_cons,
      gStep_clean (hL p (by simp)).1, List.foldl_append,
      foldl_gStep_marks p.2 (hL p (by simp)).2 (clean ++ [p.1]) comb]
    have hlen : ((clean ++ [p.1]).length : Int) - 1 = (clean.length : Int) := by
      simp
    rw [hlen, ih (fun x hx => hL x (by simp [hx])) (clean ++ [p.1]) _]
    rw [combOfBlocks]
    simp

theorem lookupMarks_combOfBlocks_lt (L : List (Str × Str)) :
    ∀ (n : Nat) (comb : List (Int × Str)) (j : Int), j < (n : Int) →
      lookupMarks (combOfBlocks n L comb) j = lookupMarks comb j := by
  induction L with
  | nil => intro n comb j _; rfl
  | cons p rest ih =>
    intro n comb j hj
    rw [combOfBlocks, ih (n + 1) _ j (by push_cast; omega),
      lookupMarks_markFold, if_neg (by omega)]

theorem lookupMarks_combOfBlocks_get (L : List (Str × Str)) :
    ∀ (n : Nat) (comb : List (Int × Str)) (i : Nat) (hi : i < L.length),
      (∀ j : Int, (n : Int) ≤ j → lookupMarks comb j = []) →
      lookupMarks (combOfBlocks n L comb) (((n + i : Nat) : Int))
        = (L.get ⟨i, hi⟩).2 := by
  induction L with
  | nil => intro n comb i hi _; cases hi
  | cons p rest ih =>
    intro n comb i hi hcomb
    match i with
    | 0 =>
      rw [combOfBlocks,
        lookupMarks_combOfBlocks_lt rest (n + 1) _ _ (by push_cast; omega),
        lookupMarks_markFold, if_pos (by push_cast; omega),
        hcomb (n : Int) (by omega), List.nil_append]
      rfl
    | i2 + 1 =>
      rw [combOfBlocks]
      have hidx : ((n + (i2 + 1) : Nat) : Int) = (((n + 1) + i2 : Nat) : Int) := by
        push_cast; omega
      rw [hidx, ih (n + 1) _ i2 (by simpa using Nat.lt_of_succ_lt_succ hi)
        (fun j hj => by
          rw [lookupMarks_markFold, if_neg (by push_cast at hj ⊢; omega)]
          exact hcomb j (by push_cast at hj ⊢; omega))]
      rfl

theorem assemble_marks (row : EmphRow) (L : List (Str × Str))
    (comb : List (Int × Str)) :
    ∀ n : Nat, (∀ i (hi : i < L.length),
        lookupMarks comb (((n + i : Nat) : Int)) = (L.get ⟨i, hi⟩).2) →
      (List.enumFrom n (L.map (fun p => p.1))).map
          (fun p => convertChar row p.2 ++ lookupMarks comb ((p.1 : Nat) : Int))
        = L.map (fun p => convertChar row p.1 ++ p.2) := by
  induction L with
  | nil => intro n _; rfl
  | cons p rest ih =>
    intro n h
    rw [List.map_cons, List.enumFrom_cons, List.map_cons]
    congr 1
    · have h0 := h 0 (by simp)
      simp only [Nat.add_zero] at h0
      rw [h0]
      rfl
    · refine ih (n + 1) (fun i hi => ?_)
      have hsucc := h (i + 1) (by simpa using Nat.succ_lt_succ hi)
      have hidx : ((n + (i + 1) : Nat) : Int) = (((n + 1) + i : Nat) : Int) := by
        push_cast; omega
      rw [hidx] at hsucc
      exact hsucc

theorem flatten_blockElems (L : List (Str × Str)) :
    ((L.map (fun p => p.1 :: p.2.map (fun u => [u]))).flatten).flatten
      = (L.map (fun p => p.1 ++ p.2)).flatten := by
  induction L with
  | nil => rfl
  | cons p rest ih =>
    simp only [List.map_cons, List.flatten_cons, List.flatten_append, ih,
      List.cons_append, List.append_assoc]
    rw [flatten_map_singleton]

theorem markUnit_of_isCombMarkStr {u : Nat} (h : isCombMarkStr [u] = true) :
    u = 0x332 ∨ u = 0x336 := by
  rw [isCombMarkStr] at h
  have h2 := of_decide_eq_true h
  have e1 : COMBINING_UNDERLINE = 0x332 := rfl
  have e2 : COMBINING_STRIKETHROUGH = 0x336 := rfl
  rcases h2 with h1 | h1
  · rw [e1] at h1
    exact Or.inl (by simpa using h1)
  · rw [e2] at h1
    exact Or.inr (by simpa using h1)

/-- C4 counterexample: a combining underline before any base character is
dropped, not preserved: converting the one-character text U+0332 to the
sansNormal variant loses the mark entirely. -/
theorem c4_counterexample :
    COMBINING_UNDERLINE ∈ ([COMBINING_UNDERLINE] : Str)
    ∧ COMBINING_UNDERLINE
        ∉ convertPreservingEmphasis [COMBINING_UNDERLINE] kwSansNormal := by
  decide

/-- C4 (amended): for every target variant present in the map and every
text decomposable into leading combining marks followed by blocks of one
base code point plus its combining marks, conversion re-emits each block
as the converted base followed by exactly its own marks (so marks attach
to the same logical base position); marks before the first base character
are dropped. -/
theorem c4_amended_marks (pre : Str) (L : List (Str × Str)) (tv : Str)
    (row : EmphRow) (hv : variantLookup tv = some row)
    (hpre : ∀ u ∈ pre, isCombMarkStr [u] = true)
    (hbase : ∀ p ∈ L, simpleBlock p.1 = true ∧ isCombMarkStr p.1 = false)
    (hmarks : ∀ p ∈ L, ∀ u ∈ p.2, isCombMarkStr [u] = true) :
    convertPreservingEmphasis (pre ++ (L.map (fun p => p.1 ++ p.2)).flatten) tv
      = (L.map (fun p => convertChar row p.1 ++ p.2)).flatten := by
  rw [convert_of_lookup hv]
  have hflat : (pre.map (fun u => [u])
        ++ (L.map (fun p => p.1 :: p.2.map (fun u => [u]))).flatten).flatten
      = pre ++ (L.map (fun p => p.1 ++ p.2)).flatten := by
    rw [List.flatten_append, flatten_map_singleton, flatten_blockElems]
  have hchunks : Chunks (pre.map (fun u => [u])
      ++ (L.map (fun p => p.1 :: p.2.map (fun u => [u]))).flatten) := by
    refine chunks_of_simple (fun b hb => ?_)
    rcases List.mem_append.mp hb with hb | hb
    · obtain ⟨u, hu, rfl⟩ := List.mem_map.mp hb
      rcases markUnit_of_isCombMarkStr (hpre u hu) with rfl | rfl <;> rfl
    · obtain ⟨blk, hblk, hbblk⟩ := List.mem_flatten.mp hb
      obtain ⟨p, hp, rfl⟩ := List.mem_map.mp hblk
      rcases List.mem_cons.mp hbblk with rfl | hbm
      · exact (hbase p hp).1
      · obtain ⟨u, hu, rfl⟩ := List.mem_map.mp hbm
        rcases markUnit_of_isCombMarkStr (hmarks p hp u hu) with rfl | rfl <;> rfl
  have harr : arrayFrom (pre ++ (L.map (fun p => p.1 ++ p.2)).flatten)
      = pre.map (fun u => [u])
        ++ (L.map (fun p => p.1 :: p.2.map (fun u => [u]))).flatten := by
    rw [← hflat, arrayFrom_of_chunks hchunks]
  rw [harr, List.foldl_append, foldl_gStep_marks pre hpre [] [],
    foldl_gStep_blocks L
      (fun p hp => ⟨(hbase p hp).2, hmarks p hp⟩) [] _]
  simp only [List.nil_append, List.length_nil]
  have hcombPre : ∀ j : Int, ((0 : Nat) : Int) ≤ j →
      lookupMarks (pre.foldl
        (fun cb u => pushMark cb ((([] : List Str).length : Int) - 1) [u]) []) j
        = [] := by
    intro j hj
    rw [lookupMarks_markFold, if_neg (by simp at hj ⊢; omega)]
    rfl
  have hlk := fun i hi => lookupMarks_combOfBlocks_get L 0 _ i hi hcombPre
  have hassemble := assemble_marks row L _ 0 (fun i hi => by
    have := hlk i hi
    simpa using this)
  have henum : (L.map (fun p => p.1)).enum
      = List.enumFrom 0 (L.map (fun p => p.1)) := rfl
  rw [henum]
  exact congrArg List.flatten hassemble

/-- C4 witness: underlined H followed by plain i converts with the
underline reattached after the converted H. -/
theorem c4_witness :
    convertPreservingEmphasis
        ([] ++ (([([72], [COMBINING_UNDERLINE]), ([105], ([] : Str))].map
          (fun p => p.1 ++ p.2)).flatten)) kwSansNormal
      = ([([72], [COMBINING_UNDERLINE]), ([105], ([] : Str))].map
          (fun p => convertChar sansNormalRow p.1 ++ p.2)).flatten :=
  c4_amended_marks [] [([72], [COMBINING_UNDERLINE]), ([105], [])]
    kwSansNormal sansNormalRow rfl (by decide) (by decide) (by decide)

end Npdwe
